import Mathlib

/-!
# ResumeFilter: intake merge and keyword ranking of `src/App.js`

A shallow embedding of the two pieces of `App` that carry semantics:

* `handleFileChange` (lines 89-136): the per-file loop that stages
  `newResumes`, the `setError` calls of its `catch` block, and the
  `setResumes` updater that merges the staged records into the store;
* `filteredAndScoredResumes` (lines 138-157): query normalisation, scoring,
  filtering and sorting.

JavaScript strings are modelled by `String`, a sequence of Unicode code
points.  The `console.error` calls, which write to the developer console
only, are left out.  What the browser supplies
(the bytes of a file, what pdf.js makes of them, `crypto.randomUUID()`,
`String.prototype.toLowerCase`) enters the model as data or as a parameter.
-/

namespace ResumeFilter

/-! ## Data model -/

/-- The record pushed on `newResumes` at line 121: `{ id, name, content }`. -/
structure Resume where
  id : String
  name : String
  content : String
  deriving DecidableEq

/-- The record built by `{ ...resume, score }` at lines 142 and 153. -/
structure ScoredResume where
  id : String
  name : String
  content : String
  score : Nat
  deriving DecidableEq

/-- What reading and parsing one file yields: `fileReader.onerror` fires, or some
pdf.js promise rejects with `pdfError`, or every page delivers its text
items (`textContent.items.map(s => s.str)`, one list per page). -/
inductive FileData where
  | unreadable
  | malformed (pdfError : String)
  | pdf (pages : List (List String))
  deriving DecidableEq

/-- A `File` of `event.target.files`: its name, its media type and what reading
it will yield. -/
structure File where
  name : String
  type : String
  data : FileData
  deriving DecidableEq

/-- The React state of `App` that `handleFileChange` and
`filteredAndScoredResumes` read or write. -/
structure AppState where
  resumes : List Resume
  keywords : String
  isLoading : Bool
  error : Option String
  deriving DecidableEq

/-- The initial state of lines 75-80. -/
def AppState.init : AppState :=
  { resumes := [], keywords := "", isLoading := false, error := none }

/-! ## Built-ins used by the code -/

/-- The built-in `Array.prototype.join(sep)` on an array of strings. -/
def join (sep : String) : List String → String
  | [] => ""
  | [x] => x
  | x :: y :: rest => x ++ sep ++ join sep (y :: rest)

/-- A JavaScript `Set` of strings, kept as the list of its elements in insertion
order. -/
abbrev JSSet := List String

/-- The method `Set.prototype.add`. -/
def JSSet.add (s : JSSet) (x : String) : JSSet :=
  if x ∈ s then s else s ++ [x]

/-- The constructor call `new Set(array)`. -/
def JSSet.ofArray (xs : List String) : JSSet :=
  xs.foldl JSSet.add []

/-- The method `Set.prototype.has`. -/
def JSSet.has (s : JSSet) (x : String) : Bool :=
  decide (x ∈ s)

/-- The getter `Set.prototype.size`. -/
def JSSet.size (s : JSSet) : Nat :=
  s.length

/-! ## Intake: `handleFileChange` -/

/-- The inner loop of lines 105-111: `fullText` starts empty and every page adds
its items joined by a space, followed by a newline. -/
def extractText (pages : List (List String)) : String :=
  pages.foldl (fun fullText items => fullText ++ (join " " items ++ "\n")) ""

/-- The message passed to `setError` at line 123. -/
def failedMessage (fileName : String) : String :=
  "Failed to process " ++ fileName ++ ". It might be corrupted or protected."

/-- The promise of lines 100-119: it resolves with the extracted text or rejects
with an `Error` whose message is given. -/
def extractedText (file : File) : Except String String :=
  match file.data with
  | FileData.unreadable => Except.error "Error reading file."
  | FileData.malformed _ => Except.error ("Could not parse " ++ file.name ++ ".")
  | FileData.pdf pages => Except.ok (extractText pages)

/-- The local state of the `for` loop of lines 97-126: the staged array
`newResumes` and the messages passed to `setError` so far, in call order. -/
structure Staging where
  newResumes : List Resume
  setErrorCalls : List String
  deriving DecidableEq

/-- One iteration of the loop (lines 98-125).  `uuid n` is what the
`crypto.randomUUID()` call number `n` of this batch returns. -/
def processFile (uuid : Nat → String) (st : Staging) (file : File) : Staging :=
  match extractedText file with
  | Except.ok text =>
      { st with newResumes := st.newResumes ++
          [{ id := uuid st.newResumes.length, name := file.name, content := text }] }
  | Except.error _ =>
      { st with setErrorCalls := st.setErrorCalls ++ [failedMessage file.name] }

/-- The whole loop over the PDF files of a batch. -/
def processFiles (uuid : Nat → String) (files : List File) : Staging :=
  files.foldl (processFile uuid) { newResumes := [], setErrorCalls := [] }

/-- Line 130: the staged records whose name the set `existingNames` lacks. -/
def uniqueNewResumes (newResumes prevResumes : List Resume) : List Resume :=
  let existingNames := JSSet.ofArray (prevResumes.map (fun r => r.name))
  newResumes.filter (fun r => !existingNames.has r.name)

/-- The updater passed to `setResumes` (lines 128-132). -/
def setResumesUpdater (newResumes prevResumes : List Resume) : List Resume :=
  prevResumes ++ uniqueNewResumes newResumes prevResumes

/-- The value of the `error` state after `setError(null)` (line 94) and then the
given `setError` calls: the last write wins. -/
def errorAfter (setErrorCalls : List String) : Option String :=
  setErrorCalls.foldl (fun _ msg => some msg) none

/-- Line 90: the selected files whose media type is PDF. -/
def pdfFiles (eventFiles : List File) : List File :=
  eventFiles.filter (fun f => f.type == "application/pdf")

/-- The handler `handleFileChange` (lines 89-136) as a function of the selected
files and the state before. -/
def handleFileChange (uuid : Nat → String) (eventFiles : List File)
    (app : AppState) : AppState :=
  let files := pdfFiles eventFiles
  if files.length = 0 then app
  else
    let st := processFiles uuid files
    { app with
      resumes := setResumesUpdater st.newResumes app.resumes
      isLoading := false
      error := errorAfter st.setErrorCalls }

/-! ## Ranking: `filteredAndScoredResumes` -/

/-- The code points that `String.prototype.trim` strips: ECMAScript WhiteSpace
(TAB, VT, FF, ZWNBSP and the space separators) and LineTerminator (LF, CR,
LS, PS). -/
def isWhiteSpace (c : Char) : Bool :=
  let n := c.toNat
  n == 0x09 || n == 0x0A || n == 0x0B || n == 0x0C || n == 0x0D || n == 0x20 ||
  n == 0xA0 || n == 0x1680 || (0x2000 ≤ n && n ≤ 0x200A) ||
  n == 0x2028 || n == 0x2029 || n == 0x202F || n == 0x205F || n == 0x3000 ||
  n == 0xFEFF

/-- The method `String.prototype.trim`. -/
def trim (s : String) : String :=
  String.mk ((s.data.dropWhile isWhiteSpace).reverse.dropWhile isWhiteSpace).reverse

/-- The pieces of a character list between the occurrences of `sep`. -/
def splitChars (sep : Char) : List Char → List (List Char)
  | [] => [[]]
  | c :: cs =>
    if c = sep then [] :: splitChars sep cs
    else
      match splitChars sep cs with
      | [] => [[c]]
      | piece :: pieces => (c :: piece) :: pieces

/-- The method `String.prototype.split(sep)` for a separator of one character. -/
def split (s : String) (sep : Char) : List String :=
  (splitChars sep s.data).map String.mk

/-- The method `String.prototype.includes`: `term` occurs in `s` as a contiguous
substring. -/
def includes (s term : String) : Bool :=
  decide (term.data <:+: s.data)

/-- Lower-casing of the letters `A`-`Z` only. -/
def asciiLower (s : String) : String :=
  String.mk (s.data.map Char.toLower)

/-- A string made of ASCII characters and white space only. -/
def Plain (s : String) : Prop :=
  ∀ c ∈ s.data, c.toNat < 128 ∨ isWhiteSpace c = true

instance (s : String) : Decidable (Plain s) := by
  unfold Plain
  infer_instance

/-- The method `String.prototype.toLowerCase`.  Its Unicode tables are not part of the
repository; the model fixes what it does on strings made of ASCII characters
and white space (it lower-cases `A`-`Z` and leaves the rest) and lets it be
any function elsewhere. -/
structure LowerCase where
  toLowerCase : String → String
  plain : ∀ s : String, Plain s → toLowerCase s = asciiLower s

/-- The lower-casing that touches `A`-`Z` only, on every string. -/
def LowerCase.ascii : LowerCase :=
  { toLowerCase := asciiLower, plain := fun _ _ => rfl }

/-- Line 139: `keywords.toLowerCase().split(',').map(k => k.trim()).filter(Boolean)`. -/
def searchTerms (L : LowerCase) (keywords : String) : List String :=
  ((split (L.toLowerCase keywords) ',').map trim).filter (fun k => k != "")

/-- Lines 147-152: the set `matchedKeywords` after the `forEach`. -/
def matchedKeywords (lowerCaseContent : String) (terms : List String) : JSSet :=
  terms.foldl
    (fun matched term =>
      if includes lowerCaseContent term then matched.add term else matched) []

/-- The callback of `resumes.map` at lines 145-154. -/
def scoreResume (L : LowerCase) (terms : List String) (resume : Resume) : ScoredResume :=
  let lowerCaseContent := L.toLowerCase resume.content
  { id := resume.id, name := resume.name, content := resume.content,
    score := (matchedKeywords lowerCaseContent terms).size }

/-- The callback of `resumes.map` at line 142: `{ ...r, score: 0 }`. -/
def zeroScore (r : Resume) : ScoredResume :=
  { id := r.id, name := r.name, content := r.content, score := 0 }

/-- The comparator of line 156: `(a, b) => b.score - a.score`. -/
def compareScore (a b : ScoredResume) : Int :=
  (b.score : Int) - (a.score : Int)

/-- Insertion of `a` in front of the first element it does not have to follow. -/
def insertSorted (cmp : ScoredResume → ScoredResume → Int) (a : ScoredResume) :
    List ScoredResume → List ScoredResume
  | [] => [a]
  | b :: l => if cmp a b ≤ 0 then a :: b :: l else b :: insertSorted cmp a l

/-- The method `Array.prototype.sort(cmp)`, which ECMAScript requires to be stable: the
sorted arrangement in which elements that compare equal keep their order.
Insertion from the right computes it. -/
def sort (cmp : ScoredResume → ScoredResume → Int) : List ScoredResume → List ScoredResume
  | [] => []
  | a :: l => insertSorted cmp a (sort cmp l)

/-- The memo `filteredAndScoredResumes` (lines 138-157) as a function of the
`resumes` and `keywords` state. -/
def filteredAndScoredResumes (L : LowerCase) (resumes : List Resume)
    (keywords : String) : List ScoredResume :=
  let terms := searchTerms L keywords
  if terms.length = 0 then resumes.map zeroScore
  else
    let scored := resumes.map (scoreResume L terms)
    sort compareScore (scored.filter (fun r => decide (r.score > 0)))

/-- The document a scored record was made from. -/
def ScoredResume.resume (d : ScoredResume) : Resume :=
  { id := d.id, name := d.name, content := d.content }

/-! ## Vocabulary of the statements -/

/-- The file's text is extracted: neither a read error nor a parse error. -/
def File.succeeds (f : File) : Bool :=
  match f.data with
  | FileData.pdf _ => true
  | _ => false

/-- The file fails: a read error or a parse error. -/
def File.fails (f : File) : Bool :=
  !f.succeeds

/-- The text extracted from a file that succeeds. -/
def File.text (f : File) : String :=
  match f.data with
  | FileData.pdf pages => extractText pages
  | _ => ""

/-- The records staged by a batch: `newResumes` when the loop is over. -/
def staged (uuid : Nat → String) (eventFiles : List File) : List Resume :=
  (processFiles uuid (pdfFiles eventFiles)).newResumes

/-- The errors a caller can read off the state once the handler is done. -/
def AppState.reportedErrors (app : AppState) : List String :=
  app.error.toList

/-- The store of the stable-sort example: A, B, C score 2, 1, 2 on `x, y`. -/
def sampleStore : List Resume :=
  [{ id := "1", name := "A", content := "X and y" },
   { id := "2", name := "B", content := "only Y" },
   { id := "3", name := "C", content := "y, then x" }]

/-- Sample identifiers for concrete runs. -/
def sampleUuid (n : Nat) : String :=
  String.mk (List.replicate (n + 1) 'u')

/-- A store of one document. -/
def sampleApp : AppState :=
  { resumes := [{ id := "k", name := "a.pdf", content := "React Python\n" }],
    keywords := "", isLoading := false, error := none }

/-- A batch of five files: a name the store has, a new name, a read error, a
text file and a parse error. -/
def sampleBatch : List File :=
  [{ name := "a.pdf", type := "application/pdf", data := FileData.pdf [["other"]] },
   { name := "b.pdf", type := "application/pdf",
     data := FileData.pdf [["nodejs", "REACT"], ["page", "two"]] },
   { name := "c.pdf", type := "application/pdf", data := FileData.unreadable },
   { name := "d.txt", type := "text/plain", data := FileData.pdf [["plain"]] },
   { name := "e.pdf", type := "application/pdf", data := FileData.malformed "bad xref" }]

/-- A batch of two readable PDF files of the same name. -/
def sameNameBatch : List File :=
  [{ name := "cv.pdf", type := "application/pdf", data := FileData.pdf [["Alice"]] },
   { name := "cv.pdf", type := "application/pdf", data := FileData.pdf [["Bob"]] }]

/-- A batch of two PDF files that both fail. -/
def failingBatch : List File :=
  [{ name := "x.pdf", type := "application/pdf", data := FileData.unreadable },
   { name := "y.pdf", type := "application/pdf", data := FileData.malformed "encrypted" }]

/-! ## Lemmas: intake -/

theorem JSSet.mem_add (s : JSSet) (x y : String) :
    y ∈ JSSet.add s x ↔ y ∈ s ∨ y = x := by
  unfold JSSet.add
  split
  · constructor
    · intro h; exact Or.inl h
    · rintro (h | h)
      · exact h
      · subst h; assumption
  · simp

theorem JSSet.mem_foldl_add (xs : List String) (s : JSSet) (y : String) :
    y ∈ xs.foldl JSSet.add s ↔ y ∈ s ∨ y ∈ xs := by
  induction xs generalizing s with
  | nil => simp
  | cons x xs ih =>
    simp only [List.foldl_cons, ih, JSSet.mem_add, List.mem_cons]
    tauto

theorem JSSet.has_ofArray (xs : List String) (y : String) :
    (JSSet.ofArray xs).has y = true ↔ y ∈ xs := by
  simp [JSSet.has, JSSet.ofArray, JSSet.mem_foldl_add]

theorem mem_uniqueNewResumes (newResumes prevResumes : List Resume) (r : Resume) :
    r ∈ uniqueNewResumes newResumes prevResumes ↔
      r ∈ newResumes ∧ ∀ s ∈ prevResumes, s.name ≠ r.name := by
  unfold uniqueNewResumes
  simp only [List.mem_filter, Bool.not_eq_true', ← Bool.not_eq_true, JSSet.has_ofArray,
    List.mem_map, not_exists, not_and]

theorem uniqueNewResumes_sublist (newResumes prevResumes : List Resume) :
    List.Sublist (uniqueNewResumes newResumes prevResumes) newResumes := by
  unfold uniqueNewResumes
  exact List.filter_sublist _

theorem processFile_succeeds (uuid : Nat → String) (st : Staging) (f : File)
    (h : f.succeeds = true) :
    processFile uuid st f =
      { newResumes := st.newResumes ++
          [{ id := uuid st.newResumes.length, name := f.name, content := f.text }],
        setErrorCalls := st.setErrorCalls } := by
  obtain ⟨name, type, data⟩ := f
  cases data <;> simp [File.succeeds] at h
  rfl

theorem processFile_fails (uuid : Nat → String) (st : Staging) (f : File)
    (h : f.succeeds = false) :
    processFile uuid st f =
      { newResumes := st.newResumes,
        setErrorCalls := st.setErrorCalls ++ [failedMessage f.name] } := by
  obtain ⟨name, type, data⟩ := f
  cases data <;> simp [File.succeeds] at h <;> rfl

theorem foldl_processFile (uuid : Nat → String) (files : List File) (st : Staging) :
    ((files.foldl (processFile uuid) st).newResumes.map (fun r => (r.name, r.content)) =
        st.newResumes.map (fun r => (r.name, r.content)) ++
          (files.filter File.succeeds).map (fun f => (f.name, f.text))) ∧
      (files.foldl (processFile uuid) st).setErrorCalls =
        st.setErrorCalls ++ (files.filter File.fails).map (fun f => failedMessage f.name) := by
  induction files generalizing st with
  | nil => simp
  | cons f fs ih =>
    rw [List.foldl_cons]
    cases h : f.succeeds
    · rw [processFile_fails uuid st f h]
      simp [ih, File.fails, h]
    · rw [processFile_succeeds uuid st f h]
      simp [ih, File.fails, h]

theorem processFiles_contents (uuid : Nat → String) (files : List File) :
    (processFiles uuid files).newResumes.map (fun r => (r.name, r.content)) =
      (files.filter File.succeeds).map (fun f => (f.name, f.text)) := by
  have := (foldl_processFile uuid files { newResumes := [], setErrorCalls := [] }).1
  simpa [processFiles] using this

theorem processFiles_names (uuid : Nat → String) (files : List File) :
    (processFiles uuid files).newResumes.map (fun r => r.name) =
      (files.filter File.succeeds).map (fun f => f.name) := by
  have h := congrArg (List.map Prod.fst) (processFiles_contents uuid files)
  simpa [List.map_map, Function.comp_def] using h

theorem processFiles_setErrorCalls (uuid : Nat → String) (files : List File) :
    (processFiles uuid files).setErrorCalls =
      (files.filter File.fails).map (fun f => failedMessage f.name) := by
  have := (foldl_processFile uuid files { newResumes := [], setErrorCalls := [] }).2
  simpa [processFiles] using this

theorem length_filter_succeeds_add_fails (files : List File) :
    (files.filter File.succeeds).length + (files.filter File.fails).length = files.length := by
  induction files with
  | nil => rfl
  | cons f fs ih =>
    cases h : f.succeeds <;> simp [List.filter_cons, File.fails, h] <;> omega

theorem processFiles_length (uuid : Nat → String) (files : List File) :
    (processFiles uuid files).newResumes.length + (files.filter File.fails).length =
      files.length := by
  have h := congrArg List.length (processFiles_names uuid files)
  simp only [List.length_map] at h
  rw [h]
  exact length_filter_succeeds_add_fails files

theorem errorAfter_eq_getLast? (calls : List String) :
    errorAfter calls = calls.getLast? := by
  unfold errorAfter
  induction calls using List.reverseRecOn with
  | nil => rfl
  | append_singleton l a _ => simp [List.foldl_append]

theorem handleFileChange_resumes (uuid : Nat → String) (eventFiles : List File)
    (app : AppState) :
    (handleFileChange uuid eventFiles app).resumes =
      app.resumes ++ uniqueNewResumes (staged uuid eventFiles) app.resumes := by
  unfold handleFileChange staged
  by_cases h : (pdfFiles eventFiles).length = 0
  · have h0 : pdfFiles eventFiles = [] := List.length_eq_zero.mp h
    simp [h0, processFiles, uniqueNewResumes]
  · simp [h, setResumesUpdater]

theorem extractText_foldl (pages : List (List String)) (acc : String) :
    pages.foldl (fun fullText items => fullText ++ (join " " items ++ "\n")) acc =
      acc ++ extractText pages := by
  unfold extractText
  induction pages generalizing acc with
  | nil => simp
  | cons p ps ih =>
    rw [List.foldl_cons, List.foldl_cons, ih, ih ("" ++ _)]
    simp [String.append_assoc]

theorem extractText_cons (p : List String) (ps : List (List String)) :
    extractText (p :: ps) = join " " p ++ "\n" ++ extractText ps := by
  conv_lhs => unfold extractText
  rw [List.foldl_cons, extractText_foldl]
  simp

theorem extractText_eq_join (p : List String) (ps : List (List String)) :
    extractText (p :: ps) = join "\n" ((p :: ps).map (join " ")) ++ "\n" := by
  induction ps generalizing p with
  | nil => simp [extractText_cons, extractText, join]
  | cons q qs ih =>
    rw [extractText_cons, ih q]
    simp [join, String.append_assoc]

/-! ## Claims: intake -/

/-- C1 (the code breaks it): two readable PDF files of one name, taken in by one
batch into the empty store, are both appended, so the store holds two
documents of the same name although the store before had none. -/
theorem intake_same_name_in_batch_both_kept :
    (AppState.init.resumes.map (fun r => r.name)).Nodup ∧
      (handleFileChange sampleUuid sameNameBatch AppState.init).resumes =
        [{ id := "u", name := "cv.pdf", content := "Alice\n" },
         { id := "uu", name := "cv.pdf", content := "Bob\n" }] ∧
      ¬ ((handleFileChange sampleUuid sameNameBatch AppState.init).resumes.map
          (fun r => r.name)).Nodup := by
  decide

/-- C2: the store after intake is the store before followed by exactly the staged
candidates whose name is not a name of the store before, so no appended
document has the name of a document that was already there. -/
theorem intake_keeps_iff_name_not_in_store (uuid : Nat → String)
    (eventFiles : List File) (app : AppState) :
    (handleFileChange uuid eventFiles app).resumes =
        app.resumes ++ (staged uuid eventFiles).filter
          (fun r => decide (r.name ∉ app.resumes.map (fun s => s.name))) ∧
      ∀ r ∈ (handleFileChange uuid eventFiles app).resumes.drop app.resumes.length,
        ∀ s ∈ app.resumes, r.name ≠ s.name := by
  have hfilter : uniqueNewResumes (staged uuid eventFiles) app.resumes =
      (staged uuid eventFiles).filter
        (fun r => decide (r.name ∉ app.resumes.map (fun s => s.name))) := by
    unfold uniqueNewResumes
    apply List.filter_congr
    intro r _
    rw [Bool.eq_iff_iff]
    simp only [Bool.not_eq_true', ← Bool.not_eq_true, JSSet.has_ofArray, decide_eq_true_eq]
  rw [handleFileChange_resumes]
  refine ⟨by rw [hfilter], ?_⟩
  intro r hr s hs
  rw [List.drop_left] at hr
  exact fun h => ((mem_uniqueNewResumes _ _ r).mp hr).2 s hs h.symm

/-- C2 at the sample batch: the appended `b.pdf` does not have the name of the
stored `a.pdf`. -/
theorem intake_keeps_iff_name_not_in_store_witness :
    (handleFileChange sampleUuid sampleBatch sampleApp).resumes =
        sampleApp.resumes ++ [Resume.mk "uu" "b.pdf" "nodejs REACT\npage two\n"] ∧
      ("b.pdf" : String) ≠ "a.pdf" :=
  ⟨by decide,
   (intake_keeps_iff_name_not_in_store sampleUuid sampleBatch sampleApp).2
     (Resume.mk "uu" "b.pdf" "nodejs REACT\npage two\n") (by decide)
     (Resume.mk "k" "a.pdf" "React Python\n") (by decide)⟩

/-- C3: the store after intake is the store before, unchanged and as a prefix,
followed by the added documents; these are a subsequence of the staged
candidates, which are the successfully extracted PDF files in batch order
(name and text); the store does not shrink. -/
theorem intake_preserves_order (uuid : Nat → String) (eventFiles : List File)
    (app : AppState) :
    (handleFileChange uuid eventFiles app).resumes =
        app.resumes ++ (handleFileChange uuid eventFiles app).resumes.drop app.resumes.length ∧
      app.resumes <+: (handleFileChange uuid eventFiles app).resumes ∧
      List.Sublist ((handleFileChange uuid eventFiles app).resumes.drop app.resumes.length)
        (staged uuid eventFiles) ∧
      (staged uuid eventFiles).map (fun r => (r.name, r.content)) =
        ((pdfFiles eventFiles).filter File.succeeds).map (fun f => (f.name, f.text)) ∧
      app.resumes.length ≤ (handleFileChange uuid eventFiles app).resumes.length := by
  rw [handleFileChange_resumes, List.drop_left]
  refine ⟨rfl, List.prefix_append _ _, uniqueNewResumes_sublist _ _,
    processFiles_contents uuid _, ?_⟩
  simp

/-- C4 (what the code does not do): when two PDF files of a batch fail, the state
after the batch carries one error message, that of the second file, not
two. -/
theorem intake_reports_one_error_for_two_failures :
    ((pdfFiles failingBatch).filter File.fails).length = 2 ∧
      (handleFileChange sampleUuid failingBatch AppState.init).reportedErrors =
        [failedMessage "y.pdf"] ∧
      ¬ ((handleFileChange sampleUuid failingBatch AppState.init).reportedErrors.length =
          ((pdfFiles failingBatch).filter File.fails).length) := by
  decide

/-- C4 (amended): for a batch of k PDF files of which m fail, the loop handles
every file: it stages the k - m files that succeed, in order, and calls
`setError` once per failed file with the message naming that file; the store
grows by at most k - m documents; and the `error` state after the batch is
the message of the last failed file only (no error when none fails, and the
state is left as it was when the batch has no PDF file). -/
theorem intake_isolates_failures (uuid : Nat → String) (eventFiles : List File)
    (app : AppState) :
    (staged uuid eventFiles).map (fun r => r.name) =
        ((pdfFiles eventFiles).filter File.succeeds).map (fun f => f.name) ∧
      (staged uuid eventFiles).length + ((pdfFiles eventFiles).filter File.fails).length =
        (pdfFiles eventFiles).length ∧
      (processFiles uuid (pdfFiles eventFiles)).setErrorCalls =
        ((pdfFiles eventFiles).filter File.fails).map (fun f => failedMessage f.name) ∧
      ((handleFileChange uuid eventFiles app).resumes.length +
          ((pdfFiles eventFiles).filter File.fails).length ≤
        app.resumes.length + (pdfFiles eventFiles).length) ∧
      (handleFileChange uuid eventFiles app).error =
        (if (pdfFiles eventFiles).length = 0 then app.error
         else (((pdfFiles eventFiles).filter File.fails).map
            (fun f => failedMessage f.name)).getLast?) := by
  refine ⟨processFiles_names uuid _, processFiles_length uuid _,
    processFiles_setErrorCalls uuid _, ?_, ?_⟩
  · rw [handleFileChange_resumes, List.length_append]
    have h1 := (uniqueNewResumes_sublist (staged uuid eventFiles) app.resumes).length_le
    have h2 := processFiles_length uuid (pdfFiles eventFiles)
    simp only [staged] at h1 ⊢
    omega
  · unfold handleFileChange
    by_cases h : (pdfFiles eventFiles).length = 0
    · simp [h]
    · simp only [h, if_false]
      rw [errorAfter_eq_getLast?, processFiles_setErrorCalls]

/-- C10 (what the code does not do): a document of one page with the fragments
`Hello` and `world` is stored with a newline after that last page. -/
theorem content_has_trailing_newline :
    extractedText (File.mk "a.pdf" "application/pdf" (FileData.pdf [["Hello", "world"]])) =
        Except.ok "Hello world\n" ∧
      extractedText (File.mk "a.pdf" "application/pdf" (FileData.pdf [["Hello", "world"]])) ≠
        Except.ok (join "\n" ([["Hello", "world"]].map (join " "))) :=
  ⟨rfl, fun h => absurd (Except.ok.inj h) (by decide)⟩

/-- C10 (amended): the content staged for a document with pages p1..pn is the
per-page texts, each its fragments joined with a single space and each
followed by a newline, the last page included: for n > 0 the newline-joined
page texts plus a final newline, and the empty string for n = 0. -/
theorem content_is_newline_terminated_pages (uuid : Nat → String) (st : Staging)
    (name type : String) (pages : List (List String)) :
    (processFile uuid st (File.mk name type (FileData.pdf pages))).newResumes =
        st.newResumes ++ [Resume.mk (uuid st.newResumes.length) name (extractText pages)] ∧
      extractText pages =
        (if pages = [] then "" else join "\n" (pages.map (join " ")) ++ "\n") ∧
      extractText pages =
        (pages.map (fun items => join " " items ++ "\n")).foldr (fun page rest => page ++ rest) "" := by
  refine ⟨rfl, ?_, ?_⟩
  · cases pages with
    | nil => rfl
    | cons p ps => simpa using extractText_eq_join p ps
  · induction pages with
    | nil => rfl
    | cons p ps ih => rw [extractText_cons, ih]; simp

/-! ## Lemmas: scoring -/

theorem matchedKeywords_foldl (c : String) (terms : List String) (acc : JSSet)
    (hacc : acc.Nodup) :
    (terms.foldl (fun matched term =>
        if includes c term then JSSet.add matched term else matched) acc).Nodup ∧
      ∀ y, y ∈ terms.foldl (fun matched term =>
          if includes c term then JSSet.add matched term else matched) acc ↔
        y ∈ acc ∨ (y ∈ terms ∧ includes c y = true) := by
  induction terms generalizing acc with
  | nil => simp [hacc]
  | cons t ts ih =>
    rw [List.foldl_cons]
    by_cases ht : includes c t = true
    · have hn : (JSSet.add acc t).Nodup := by
        unfold JSSet.add
        split
        · exact hacc
        · rw [List.nodup_append]
          refine ⟨hacc, List.nodup_singleton t, ?_⟩
          intro x hx hx'
          rw [List.mem_singleton] at hx'
          subst hx'
          contradiction
      rw [if_pos ht]
      refine ⟨(ih _ hn).1, fun y => ?_⟩
      rw [(ih _ hn).2 y, JSSet.mem_add, List.mem_cons]
      constructor
      · rintro ((h | h) | h)
        · exact Or.inl h
        · subst h; exact Or.inr ⟨Or.inl rfl, ht⟩
        · exact Or.inr ⟨Or.inr h.1, h.2⟩
      · rintro (h | ⟨h | h, h'⟩)
        · exact Or.inl (Or.inl h)
        · exact Or.inl (Or.inr h)
        · exact Or.inr ⟨h, h'⟩
    · rw [if_neg ht]
      refine ⟨(ih _ hacc).1, fun y => ?_⟩
      rw [(ih _ hacc).2 y, List.mem_cons]
      constructor
      · rintro (h | h)
        · exact Or.inl h
        · exact Or.inr ⟨Or.inr h.1, h.2⟩
      · rintro (h | ⟨h | h, h'⟩)
        · exact Or.inl h
        · subst h; exact absurd h' ht
        · exact Or.inr ⟨h, h'⟩

theorem mem_matchedKeywords (c : String) (terms : List String) (y : String) :
    y ∈ matchedKeywords c terms ↔ y ∈ terms ∧ y.data <:+: c.data := by
  unfold matchedKeywords
  rw [(matchedKeywords_foldl c terms [] List.nodup_nil).2 y]
  simp [includes]

theorem matchedKeywords_size (c : String) (terms : List String) :
    (matchedKeywords c terms).size =
      (terms.toFinset.filter (fun t => t.data <:+: c.data)).card := by
  have hn : (matchedKeywords c terms).Nodup :=
    (matchedKeywords_foldl c terms [] List.nodup_nil).1
  unfold JSSet.size
  rw [← List.toFinset_card_of_nodup hn]
  congr 1
  ext y
  simp [mem_matchedKeywords]

theorem matchedKeywords_size_pos (c : String) (terms : List String) :
    0 < (matchedKeywords c terms).size ↔ ∃ t ∈ terms, t.data <:+: c.data := by
  unfold JSSet.size
  rw [List.length_pos_iff_exists_mem]
  constructor
  · rintro ⟨y, hy⟩
    exact ⟨y, (mem_matchedKeywords c terms y).mp hy⟩
  · rintro ⟨y, hy⟩
    exact ⟨y, (mem_matchedKeywords c terms y).mpr hy⟩

theorem matchedKeywords_size_congr (c : String) (terms terms' : List String)
    (h : terms.toFinset = terms'.toFinset) :
    (matchedKeywords c terms).size = (matchedKeywords c terms').size := by
  rw [matchedKeywords_size, matchedKeywords_size, h]

/-! ## Lemmas: sorting -/

theorem compareScore_nonpos (a b : ScoredResume) :
    compareScore a b ≤ 0 ↔ b.score ≤ a.score := by
  unfold compareScore
  omega

theorem insertSorted_perm (cmp : ScoredResume → ScoredResume → Int) (a : ScoredResume)
    (l : List ScoredResume) : (insertSorted cmp a l).Perm (a :: l) := by
  induction l with
  | nil => exact List.Perm.refl _
  | cons b l ih =>
    unfold insertSorted
    split
    · exact List.Perm.refl _
    · exact (ih.cons b).trans (List.Perm.swap a b l)

theorem sort_perm (cmp : ScoredResume → ScoredResume → Int) (l : List ScoredResume) :
    (sort cmp l).Perm l := by
  induction l with
  | nil => exact List.Perm.refl _
  | cons a l ih => exact (insertSorted_perm cmp a _).trans (ih.cons a)

theorem insertSorted_descending (a : ScoredResume) (l : List ScoredResume)
    (h : l.Pairwise (fun x y => y.score ≤ x.score)) :
    (insertSorted compareScore a l).Pairwise (fun x y => y.score ≤ x.score) := by
  induction l with
  | nil => simp [insertSorted]
  | cons b l ih =>
    rw [List.pairwise_cons] at h
    unfold insertSorted
    split
    · rename_i hab
      rw [compareScore_nonpos] at hab
      rw [List.pairwise_cons]
      refine ⟨?_, List.pairwise_cons.mpr h⟩
      intro x hx
      rcases List.mem_cons.mp hx with hx | hx
      · subst hx; exact hab
      · exact le_trans (h.1 x hx) hab
    · rename_i hab
      rw [compareScore_nonpos] at hab
      rw [List.pairwise_cons]
      refine ⟨?_, ih h.2⟩
      intro x hx
      rcases List.mem_cons.mp ((insertSorted_perm compareScore a l).mem_iff.mp hx) with hx | hx
      · subst hx; omega
      · exact h.1 x hx

theorem sort_descending (l : List ScoredResume) :
    (sort compareScore l).Pairwise (fun x y => y.score ≤ x.score) := by
  induction l with
  | nil => exact List.Pairwise.nil
  | cons a l ih => exact insertSorted_descending a _ ih

theorem filter_insertSorted (k : Nat) (a : ScoredResume) (l : List ScoredResume) :
    (insertSorted compareScore a l).filter (fun d => d.score == k) =
      (a :: l).filter (fun d => d.score == k) := by
  induction l with
  | nil => rfl
  | cons b l ih =>
    unfold insertSorted
    split
    · rfl
    · rename_i hab
      rw [compareScore_nonpos] at hab
      rw [List.filter_cons, ih]
      by_cases hb : b.score = k
      · have ha : ¬ a.score = k := by omega
        simp [List.filter_cons, hb, ha]
      · simp [List.filter_cons, hb]

theorem filter_sort (k : Nat) (l : List ScoredResume) :
    (sort compareScore l).filter (fun d => d.score == k) =
      l.filter (fun d => d.score == k) := by
  induction l with
  | nil => rfl
  | cons a l ih =>
    show (insertSorted compareScore a (sort compareScore l)).filter _ = _
    rw [filter_insertSorted, List.filter_cons, ih, List.filter_cons]

/-! ## Lemmas: ranking -/

theorem rank_of_no_terms (L : LowerCase) (resumes : List Resume) (keywords : String)
    (h : searchTerms L keywords = []) :
    filteredAndScoredResumes L resumes keywords = resumes.map zeroScore := by
  simp [filteredAndScoredResumes, h]

theorem rank_of_terms (L : LowerCase) (resumes : List Resume) (keywords : String)
    (h : searchTerms L keywords ≠ []) :
    filteredAndScoredResumes L resumes keywords =
      sort compareScore ((resumes.map (scoreResume L (searchTerms L keywords))).filter
        (fun r => decide (r.score > 0))) := by
  have h0 : ¬ (searchTerms L keywords).length = 0 := fun h0 => h (List.length_eq_zero.mp h0)
  simp [filteredAndScoredResumes, h0]

theorem mem_rank (L : LowerCase) (resumes : List Resume) (keywords : String)
    (h : searchTerms L keywords ≠ []) (d : ScoredResume) :
    d ∈ filteredAndScoredResumes L resumes keywords ↔
      (∃ r ∈ resumes, scoreResume L (searchTerms L keywords) r = d) ∧ 0 < d.score := by
  rw [rank_of_terms L resumes keywords h, (sort_perm _ _).mem_iff]
  simp [List.mem_filter]

theorem searchTerms_plain (L : LowerCase) (keywords : String) (h : Plain keywords) :
    searchTerms L keywords = searchTerms LowerCase.ascii keywords := by
  unfold searchTerms
  rw [L.plain keywords h]
  rfl

theorem rank_plain (L : LowerCase) (resumes : List Resume) (keywords : String)
    (hk : Plain keywords) (hr : ∀ r ∈ resumes, Plain r.content) :
    filteredAndScoredResumes L resumes keywords =
      filteredAndScoredResumes LowerCase.ascii resumes keywords := by
  have hmap : ∀ terms, resumes.map (scoreResume L terms) =
      resumes.map (scoreResume LowerCase.ascii terms) := by
    intro terms
    apply List.map_congr_left
    intro r hmem
    unfold scoreResume
    rw [L.plain r.content (hr r hmem)]
    rfl
  unfold filteredAndScoredResumes
  rw [searchTerms_plain L keywords hk]
  simp only [hmap]

theorem rank_congr_terms (L : LowerCase) (resumes : List Resume) (keywords keywords' : String)
    (h : (searchTerms L keywords).toFinset = (searchTerms L keywords').toFinset) :
    filteredAndScoredResumes L resumes keywords =
      filteredAndScoredResumes L resumes keywords' := by
  have hnil : searchTerms L keywords = [] ↔ searchTerms L keywords' = [] := by
    rw [← List.toFinset_eq_empty_iff, ← List.toFinset_eq_empty_iff (l := searchTerms L keywords'), h]
  by_cases h0 : searchTerms L keywords = []
  · rw [rank_of_no_terms L resumes keywords h0, rank_of_no_terms L resumes keywords' (hnil.mp h0)]
  · rw [rank_of_terms L resumes keywords h0,
      rank_of_terms L resumes keywords' (fun h1 => h0 (hnil.mpr h1))]
    congr 2
    apply List.map_congr_left
    intro r _
    unfold scoreResume
    simp only [matchedKeywords_size_congr _ _ _ h]

theorem score_pos_iff (L : LowerCase) (terms : List String) (r : Resume) :
    0 < (scoreResume L terms r).score ↔
      ∃ t ∈ terms, t.data <:+: (L.toLowerCase r.content).data :=
  matchedKeywords_size_pos _ _

/-! ## Lemmas: queries without terms -/

theorem toLower_of_separator (c : Char) (h : c = ',' ∨ isWhiteSpace c = true) :
    c.toLower = c := by
  have hn : ¬ (c.toNat ≥ 65 ∧ c.toNat ≤ 90) := by
    rcases h with h | h
    · subst h; decide
    · simp only [isWhiteSpace, Bool.or_eq_true, Bool.and_eq_true, beq_iff_eq,
        decide_eq_true_eq] at h
      omega
  unfold Char.toLower
  simp only [hn, if_false]

theorem asciiLower_of_separators (cs : List Char)
    (h : ∀ c ∈ cs, c = ',' ∨ isWhiteSpace c = true) :
    cs.map Char.toLower = cs := by
  induction cs with
  | nil => rfl
  | cons c cs ih =>
    rw [List.map_cons, toLower_of_separator c (h c (List.mem_cons_self c cs)),
      ih (fun x hx => h x (List.mem_cons_of_mem c hx))]

theorem splitChars_pieces (cs : List Char)
    (h : ∀ c ∈ cs, c = ',' ∨ isWhiteSpace c = true) :
    ∀ piece ∈ splitChars ',' cs, ∀ c ∈ piece, isWhiteSpace c = true := by
  induction cs with
  | nil => simp [splitChars]
  | cons c cs ih =>
    have ih' := ih (fun x hx => h x (List.mem_cons_of_mem c hx))
    unfold splitChars
    by_cases hc : c = ','
    · rw [if_pos hc]
      intro piece hp
      rcases List.mem_cons.mp hp with hp | hp
      · subst hp; simp
      · exact ih' piece hp
    · rw [if_neg hc]
      have hw : isWhiteSpace c = true := (h c (List.mem_cons_self c cs)).resolve_left hc
      cases hs : splitChars ',' cs with
      | nil => simp [hw]
      | cons p ps =>
        rw [hs] at ih'
        intro piece hpiece
        rcases List.mem_cons.mp hpiece with hp | hp
        · subst hp
          intro x hx
          rcases List.mem_cons.mp hx with hx | hx
          · subst hx; exact hw
          · exact ih' p (List.mem_cons_self p ps) x hx
        · exact ih' piece (List.mem_cons_of_mem p hp)

theorem trim_of_whiteSpace (cs : List Char) (h : ∀ c ∈ cs, isWhiteSpace c = true) :
    trim (String.mk cs) = "" := by
  unfold trim
  have h1 : List.dropWhile isWhiteSpace cs = [] := List.dropWhile_eq_nil_iff.mpr h
  simp only [h1]
  rfl

theorem searchTerms_of_separators (L : LowerCase) (keywords : String)
    (h : ∀ c ∈ keywords.data, c = ',' ∨ isWhiteSpace c = true) :
    searchTerms L keywords = [] := by
  have hplain : Plain keywords := by
    intro c hc
    rcases h c hc with hc' | hc'
    · subst hc'; exact Or.inl (by decide)
    · exact Or.inr hc'
  have hlow : asciiLower keywords = keywords := by
    unfold asciiLower
    rw [asciiLower_of_separators keywords.data h]
  unfold searchTerms
  rw [L.plain keywords hplain, hlow, List.filter_eq_nil_iff]
  intro k hk
  simp only [split, List.map_map, List.mem_map, Function.comp_apply] at hk
  obtain ⟨piece, hpiece, rfl⟩ := hk
  rw [trim_of_whiteSpace piece (splitChars_pieces keywords.data h piece hpiece)]
  decide

/-! ## Claims: ranking -/

/-- C5: when the query has at least one search term, the score of every ranked
document is the number of distinct search terms that occur as a substring of
its lower-cased content; the query `react, nodejs` scores a document with
the text `React and Python` at 1. -/
theorem score_counts_distinct_matching_terms (L : LowerCase) (resumes : List Resume)
    (keywords : String) (h : searchTerms L keywords ≠ []) :
    (∀ d ∈ filteredAndScoredResumes L resumes keywords,
        d.score = ((searchTerms L keywords).toFinset.filter
          (fun t => t.data <:+: (L.toLowerCase d.content).data)).card) ∧
      filteredAndScoredResumes L [Resume.mk "7" "cv.pdf" "React and Python"] "react, nodejs" =
        [ScoredResume.mk "7" "cv.pdf" "React and Python" 1] := by
  constructor
  · intro d hd
    obtain ⟨⟨r, _, rfl⟩, _⟩ := (mem_rank L resumes keywords h d).mp hd
    exact matchedKeywords_size _ _
  · rw [rank_plain L _ _ (by decide) (by decide)]
    decide

/-- C5 at the sample store and the query `x, y`: document A has score 2, and both
terms occur in its lower-cased text. -/
theorem score_counts_distinct_matching_terms_witness :
    searchTerms LowerCase.ascii "x, y" ≠ [] ∧
      ScoredResume.mk "1" "A" "X and y" 2 ∈
        filteredAndScoredResumes LowerCase.ascii sampleStore "x, y" ∧
      2 = ((searchTerms LowerCase.ascii "x, y").toFinset.filter
          (fun t => t.data <:+: (LowerCase.ascii.toLowerCase "X and y").data)).card :=
  ⟨by decide, by decide,
   (score_counts_distinct_matching_terms LowerCase.ascii sampleStore "x, y" (by decide)).1
     (ScoredResume.mk "1" "A" "X and y" 2) (by decide)⟩

/-- C6: every score in the ranking is at most the number of distinct search terms;
two queries with the same set of search terms rank alike, so `react, react,
nodejs` ranks every store as `react, nodejs` does, with no score above 2. -/
theorem score_at_most_distinct_terms (L : LowerCase) (resumes : List Resume)
    (keywords : String) :
    (∀ d ∈ filteredAndScoredResumes L resumes keywords,
        d.score ≤ (searchTerms L keywords).dedup.length) ∧
      (∀ keywords' : String,
        (searchTerms L keywords).toFinset = (searchTerms L keywords').toFinset →
        filteredAndScoredResumes L resumes keywords =
          filteredAndScoredResumes L resumes keywords') ∧
      filteredAndScoredResumes L resumes "react, react, nodejs" =
        filteredAndScoredResumes L resumes "react, nodejs" ∧
      ∀ d ∈ filteredAndScoredResumes L resumes "react, react, nodejs", d.score ≤ 2 := by
  have bound : ∀ q : String, ∀ d ∈ filteredAndScoredResumes L resumes q,
      d.score ≤ (searchTerms L q).dedup.length := by
    intro q d hd
    by_cases h : searchTerms L q = []
    · rw [rank_of_no_terms L resumes q h] at hd
      obtain ⟨r, _, rfl⟩ := List.mem_map.mp hd
      exact Nat.zero_le _
    · obtain ⟨⟨r, _, rfl⟩, _⟩ := (mem_rank L resumes q h d).mp hd
      show (matchedKeywords _ _).size ≤ _
      rw [matchedKeywords_size, ← List.card_toFinset]
      exact Finset.card_filter_le _ _
  have h3 : searchTerms L "react, react, nodejs" = ["react", "react", "nodejs"] := by
    rw [searchTerms_plain L _ (by decide)]; decide
  have h2 : searchTerms L "react, nodejs" = ["react", "nodejs"] := by
    rw [searchTerms_plain L _ (by decide)]; decide
  refine ⟨bound keywords, fun q hq => rank_congr_terms L resumes keywords q hq, ?_, ?_⟩
  · apply rank_congr_terms
    rw [h3, h2]
    decide
  · intro d hd
    have := bound _ d hd
    rw [h3] at this
    exact this

/-- C6 at the sample store: `x, x, y` has two distinct terms, document A is ranked
with score 2, and 2 is at most 2. -/
theorem score_at_most_distinct_terms_witness :
    ScoredResume.mk "1" "A" "X and y" 2 ∈
        filteredAndScoredResumes LowerCase.ascii sampleStore "x, x, y" ∧
      2 ≤ (searchTerms LowerCase.ascii "x, x, y").dedup.length ∧
      (searchTerms LowerCase.ascii "x, x, y").dedup.length = 2 :=
  ⟨by decide,
   (score_at_most_distinct_terms LowerCase.ascii sampleStore "x, x, y").1
     (ScoredResume.mk "1" "A" "X and y" 2) (by decide),
   by decide⟩

/-- C7: when the query has at least one search term, the ranking is ordered by
score, non-increasing, and for every score the ranked documents of that
score are, in ranking order, the store's documents of that score in store
order; the store A, B, C with scores 2, 1, 2 is ranked A, C, B. -/
theorem rank_descending_and_stable (L : LowerCase) (resumes : List Resume)
    (keywords : String) (h : searchTerms L keywords ≠ []) :
    (filteredAndScoredResumes L resumes keywords).Pairwise
        (fun a b => b.score ≤ a.score) ∧
      (∀ k : Nat, 0 < k →
        ((filteredAndScoredResumes L resumes keywords).filter
            (fun d => d.score == k)).map ScoredResume.resume =
          resumes.filter
            (fun r => (scoreResume L (searchTerms L keywords) r).score == k)) ∧
      (filteredAndScoredResumes L sampleStore "x, y").map (fun d => (d.name, d.score)) =
        [("A", 2), ("C", 2), ("B", 1)] := by
  refine ⟨?_, ?_, ?_⟩
  · rw [rank_of_terms L resumes keywords h]
    exact sort_descending _
  · intro k hk
    rw [rank_of_terms L resumes keywords h, filter_sort, List.filter_filter,
      List.filter_map, List.map_map]
    have hid : ScoredResume.resume ∘ scoreResume L (searchTerms L keywords) = id := by
      funext r; rfl
    rw [hid, List.map_id]
    apply List.filter_congr
    intro r _
    rw [Bool.eq_iff_iff]
    simp only [Function.comp_apply, gt_iff_lt, Bool.and_eq_true, beq_iff_eq,
      decide_eq_true_eq]
    constructor
    · exact fun hh => hh.1
    · exact fun hh => ⟨hh, by omega⟩
  · rw [rank_plain L _ _ (by decide) (by decide)]
    decide

/-- C7 at the sample store and the query `x, y`: the ranked documents of score 2
are A and C, in store order. -/
theorem rank_descending_and_stable_witness :
    searchTerms LowerCase.ascii "x, y" ≠ [] ∧ 0 < 2 ∧
      ((filteredAndScoredResumes LowerCase.ascii sampleStore "x, y").filter
          (fun d => d.score == 2)).map ScoredResume.resume =
        sampleStore.filter
          (fun r => (scoreResume LowerCase.ascii
            (searchTerms LowerCase.ascii "x, y") r).score == 2) ∧
      sampleStore.filter
          (fun r => (scoreResume LowerCase.ascii
            (searchTerms LowerCase.ascii "x, y") r).score == 2) =
        [Resume.mk "1" "A" "X and y", Resume.mk "3" "C" "y, then x"] :=
  ⟨by decide, by decide,
   (rank_descending_and_stable LowerCase.ascii sampleStore "x, y" (by decide)).2.1 2
     (by decide),
   by decide⟩

/-- C8: a query that normalises to no search term ranks every document of the
store, in store order, with id, name and content unchanged and score 0; the
empty string is such a query, and so is every string made of commas and
white space only. -/
theorem empty_query_returns_store (L : LowerCase) (resumes : List Resume)
    (keywords : String) :
    (searchTerms L keywords = [] →
        filteredAndScoredResumes L resumes keywords =
          resumes.map (fun r => ScoredResume.mk r.id r.name r.content 0)) ∧
      searchTerms L "" = [] ∧
      ((∀ c ∈ keywords.data, c = ',' ∨ isWhiteSpace c = true) →
        searchTerms L keywords = []) := by
  refine ⟨fun h => rank_of_no_terms L resumes keywords h, ?_,
    searchTerms_of_separators L keywords⟩
  exact searchTerms_of_separators L "" (by simp)

/-- C8 at the sample store and a query of commas, blanks and a tab. -/
theorem empty_query_returns_store_witness :
    (∀ c ∈ (" ,\t, " : String).data, c = ',' ∨ isWhiteSpace c = true) ∧
      searchTerms LowerCase.ascii " ,\t, " = [] ∧
      filteredAndScoredResumes LowerCase.ascii sampleStore " ,\t, " =
        [ScoredResume.mk "1" "A" "X and y" 0, ScoredResume.mk "2" "B" "only Y" 0,
         ScoredResume.mk "3" "C" "y, then x" 0] :=
  ⟨by decide,
   (empty_query_returns_store LowerCase.ascii sampleStore " ,\t, ").2.2 (by decide),
   (empty_query_returns_store LowerCase.ascii sampleStore " ,\t, ").1 (by decide)⟩

/-- C9: when the query has at least one search term, the ranked documents are,
up to order and each as often as it is in the store, the documents of the
store whose lower-cased content contains at least one search term, with id,
name and content unchanged; every ranked score is positive; and the ranking
is empty when no document contains any term. -/
theorem rank_keeps_matching_documents (L : LowerCase) (resumes : List Resume)
    (keywords : String) (h : searchTerms L keywords ≠ []) :
    ((filteredAndScoredResumes L resumes keywords).map ScoredResume.resume).Perm
        (resumes.filter (fun r => decide
          (∃ t ∈ searchTerms L keywords, t.data <:+: (L.toLowerCase r.content).data))) ∧
      (∀ d ∈ filteredAndScoredResumes L resumes keywords, 0 < d.score) ∧
      ((∀ r ∈ resumes, ∀ t ∈ searchTerms L keywords,
          ¬ t.data <:+: (L.toLowerCase r.content).data) →
        filteredAndScoredResumes L resumes keywords = []) := by
  have hperm : ((filteredAndScoredResumes L resumes keywords).map ScoredResume.resume).Perm
      (resumes.filter (fun r => decide
        (∃ t ∈ searchTerms L keywords, t.data <:+: (L.toLowerCase r.content).data))) := by
    rw [rank_of_terms L resumes keywords h]
    refine ((sort_perm compareScore _).map ScoredResume.resume).trans ?_
    rw [List.filter_map, List.map_map]
    have hid : ScoredResume.resume ∘ scoreResume L (searchTerms L keywords) = id := by
      funext r; rfl
    rw [hid, List.map_id]
    apply List.Perm.of_eq
    apply List.filter_congr
    intro r _
    rw [Bool.eq_iff_iff]
    simp only [Function.comp_apply, gt_iff_lt, decide_eq_true_eq]
    exact score_pos_iff L _ r
  refine ⟨hperm, fun d hd => ((mem_rank L resumes keywords h d).mp hd).2, ?_⟩
  intro hnone
  have hnil : resumes.filter (fun r => decide
      (∃ t ∈ searchTerms L keywords, t.data <:+: (L.toLowerCase r.content).data)) = [] := by
    rw [List.filter_eq_nil_iff]
    intro r hr
    simp only [decide_eq_true_eq, not_exists, not_and]
    exact hnone r hr
  rw [hnil] at hperm
  exact List.map_eq_nil_iff.mp hperm.eq_nil

/-- C9 at the sample store: the query `zzzznotfound` has one term, no document
contains it, and the ranking is empty. -/
theorem rank_keeps_matching_documents_witness :
    searchTerms LowerCase.ascii "zzzznotfound" ≠ [] ∧
      (∀ r ∈ sampleStore, ∀ t ∈ searchTerms LowerCase.ascii "zzzznotfound",
        ¬ t.data <:+: (LowerCase.ascii.toLowerCase r.content).data) ∧
      filteredAndScoredResumes LowerCase.ascii sampleStore "zzzznotfound" = [] :=
  ⟨by decide, by decide,
   (rank_keeps_matching_documents LowerCase.ascii sampleStore "zzzznotfound"
     (by decide)).2.2 (by decide)⟩

end ResumeFilter
